import Mathlib

/-!
Verification of the ADFCRIS influence-maximization core.

This file gives a shallow embedding of the two core modules of the
repository and proves (or refutes) the specification claims about them:

* `src/adfcris/core/coverage.py` — `find_seed_set`, the optimized greedy
  maximum-coverage selector over a collection of RR (reverse-reachable)
  sets.  Python / numpy behaviours that matter are modelled explicitly:
  `np.argmax` returns the first index attaining the maximum and raises on
  an empty array (modelled by `CovErr.emptyArgmax`), and indexing the
  `marginal_gains` array with an out-of-range vertex id raises
  (modelled by `CovErr.oobAccess`).

* `src/adfcris/core/ris.py` — `generate_rr_set` and
  `generate_rr_sets_collection`, the live-edge sampler and the collection
  builder.  Probabilities and uniform draws are modelled as rationals
  (only comparisons are performed on them, so this is faithful); the
  randomness consumed by the code (one root per sample, one uniform draw
  per edge) is passed in explicitly.
-/

namespace ADFCRIS

/-! ## Embedding of `coverage.py` (`find_seed_set`) -/

/-- Errors the Python code can raise inside the selection loop:
`oobAccess` models the `IndexError` from `marginal_gains[node_in_set]`
when a raw RR-set element is out of range, and `emptyArgmax` models the
`ValueError` from `np.argmax` on a zero-length array. -/
inductive CovErr where
  | oobAccess
  | emptyArgmax
deriving DecidableEq, Repr

deriving instance DecidableEq for Except

/-- State of the greedy selection loop: the `marginal_gains` array, the
`covered_rr_mask` array and the `seed_set` accumulated so far. -/
structure SelState where
  gains : List ℤ
  covered : List Bool
  seeds : List ℕ
deriving DecidableEq, Repr

/-- `np.argmax`: index of the first occurrence of the maximum value.
The empty case is unreachable (callers check emptiness first, mirroring
the `ValueError` numpy raises there). -/
def argmaxIdx : List ℤ → ℕ
  | [] => 0
  | [_] => 0
  | x :: y :: xs =>
    if (y :: xs).getD (argmaxIdx (y :: xs)) 0 > x then argmaxIdx (y :: xs) + 1 else 0

/-- The inverted index `node_to_rr_indices[v]`: ascending list of indices
of the RR sets containing `v`, subject to the `node_idx < num_vertices`
safety check at build time (a vertex failing it keeps the `defaultdict`
default, the empty list). -/
def nodeToRRIndices (rrSets : List (Finset ℕ)) (n : ℕ) (v : ℕ) : List ℕ :=
  if v < n then (List.range rrSets.length).filter (fun i => v ∈ rrSets.getD i ∅) else []

/-- Initial `marginal_gains`: `marginal_gains[v] = len(node_to_rr_indices[v])`
for each `v < num_vertices`. -/
def initGains (rrSets : List (Finset ℕ)) (n : ℕ) : List ℤ :=
  (List.range n).map (fun v => ((nodeToRRIndices rrSets n v).length : ℤ))

/-- One pass of `for node_in_set in rr_set: if marginal_gains[node_in_set] != -1:
marginal_gains[node_in_set] -= 1`, walking the gains array; the first
argument is the index of the current cell. -/
def decGainsList (S : Finset ℕ) : ℕ → List ℤ → List ℤ
  | _, [] => []
  | v, g :: rest => (if v ∈ S ∧ g ≠ -1 then g - 1 else g) :: decGainsList S (v + 1) rest

/-- The decrement pass over one newly covered RR set.  The Python loop
indexes `marginal_gains` with each raw element of the set, so an element
`≥ len(marginal_gains)` raises `IndexError`. -/
def decrementSet (S : Finset ℕ) (gains : List ℤ) : Except CovErr (List ℤ) :=
  if ∀ v ∈ S, v < gains.length then .ok (decGainsList S 0 gains) else .error .oobAccess

/-- The update loop `for rr_index in node_to_rr_indices[best_node]`:
skip already-covered RR sets; otherwise mark covered and run the
decrement pass over that RR set. -/
def coverAndDecrement (rrSets : List (Finset ℕ)) :
    List ℕ → List ℤ × List Bool → Except CovErr (List ℤ × List Bool)
  | [], st => .ok st
  | i :: rest, (gains, covered) =>
    if covered.getD i false then coverAndDecrement rrSets rest (gains, covered)
    else
      match decrementSet (rrSets.getD i ∅) gains with
      | .error e => .error e
      | .ok gains' => coverAndDecrement rrSets rest (gains', covered.set i true)

/-- One iteration of the `for _ in range(k)` loop: `argmax`, the zero-gain
early stop (`.ok none`), appending the best node, the `-1` sentinel, and
the incremental update.  Matches `coverage.py` lines 51–79. -/
def greedyStep (rrSets : List (Finset ℕ)) (n : ℕ) (st : SelState) :
    Except CovErr (Option SelState) :=
  if st.gains.isEmpty then .error .emptyArgmax
  else if st.gains.getD (argmaxIdx st.gains) 0 = 0 then .ok none
  else
    match coverAndDecrement rrSets (nodeToRRIndices rrSets n (argmaxIdx st.gains))
        (st.gains.set (argmaxIdx st.gains) (-1), st.covered) with
    | .error e => .error e
    | .ok (g2, c2) => .ok (some ⟨g2, c2, st.seeds ++ [argmaxIdx st.gains]⟩)

/-- Run the selection loop for (at most) `k` iterations; an early stop
returns the current state. -/
def greedyRun (rrSets : List (Finset ℕ)) (n : ℕ) : ℕ → SelState → Except CovErr SelState
  | 0, st => .ok st
  | k + 1, st =>
    match greedyStep rrSets n st with
    | .error e => .error e
    | .ok none => .ok st
    | .ok (some st') => greedyRun rrSets n k st'

/-- The state at entry of the selection loop. -/
def initState (rrSets : List (Finset ℕ)) (n : ℕ) : SelState :=
  ⟨initGains rrSets n, List.replicate rrSets.length false, []⟩

/-- `find_seed_set(rr_sets, k, num_vertices)` from `coverage.py`:
empty input or `k == 0` short-circuits to `[]`; otherwise the greedy
loop runs and the accumulated `seed_set` is returned. -/
def find_seed_set (rrSets : List (Finset ℕ)) (k : ℕ) (n : ℕ) :
    Except CovErr (List ℕ) :=
  if rrSets = [] ∨ k = 0 then .ok []
  else (greedyRun rrSets n k (initState rrSets n)).map SelState.seeds

/-! ## The gain-table invariant -/

/-- Number of currently uncovered RR sets containing `v`. -/
def uncovCount (rrSets : List (Finset ℕ)) (covered : List Bool) (v : ℕ) : ℤ :=
  (((List.range rrSets.length).filter
      (fun i => decide (v ∈ rrSets.getD i ∅) && !(covered.getD i false))).length : ℤ)

/-- The in-bounds precondition: every vertex id occurring in an RR set is
strictly less than the vertex count. -/
def InBounds (rrSets : List (Finset ℕ)) (n : ℕ) : Prop :=
  ∀ S ∈ rrSets, ∀ v ∈ S, v < n

/-- Invariant carried by the selection loop: array lengths are stable,
every selected vertex carries the `-1` sentinel, and every non-selected
vertex's gain equals its uncovered-coverage count. -/
structure GoodState (rrSets : List (Finset ℕ)) (n : ℕ) (st : SelState) : Prop where
  glen : st.gains.length = n
  clen : st.covered.length = rrSets.length
  sel : ∀ v ∈ st.seeds, v < n ∧ st.gains.getD v 0 = -1
  unsel : ∀ v < n, v ∉ st.seeds → st.gains.getD v 0 = uncovCount rrSets st.covered v

instance (rrSets : List (Finset ℕ)) (n : ℕ) : Decidable (InBounds rrSets n) :=
  inferInstanceAs (Decidable (∀ S ∈ rrSets, ∀ v ∈ S, v < n))

/-! ## Embedding of `ris.py` (`generate_rr_set`, `generate_rr_sets_collection`) -/

/-- A graph-tool graph: a dense vertex range `0 .. n-1` and a directed
edge list.  graph-tool guarantees every edge endpoint is a valid vertex,
recorded here as a structure invariant. -/
structure Digraph where
  n : ℕ
  edges : List (ℕ × ℕ)
  valid : ∀ e ∈ edges, e.1 < n ∧ e.2 < n

/-- A graph-tool edge property map: its `value_type()` string and the
per-edge values (aligned with the edge list). -/
structure EdgeProp where
  value_type : String
  values : List ℚ
deriving DecidableEq, Repr

/-- The exceptions `generate_rr_sets_collection` raises: `ValueError`
when the property map `p` is missing, `TypeError` when its value type is
not a floating-point kind. -/
inductive RisError where
  | valueError
  | typeError
deriving DecidableEq, Repr

/-- `np.greater(p, u)` for one edge: the edge is live iff `p > u`. -/
def liveB (pe u : ℚ) : Bool := pe > u

/-- The live-edge filter `np.greater(p_map.a, random_values)`: keep the
edges whose probability strictly exceeds their uniform draw. -/
def liveEdges (edges : List (ℕ × ℕ)) (p draws : List ℚ) : List (ℕ × ℕ) :=
  ((edges.zip p).zip draws).filterMap
    (fun epu => if liveB epu.1.2 epu.2 then some epu.1.1 else none)

/-- `GraphView(g, reversed=True)`: every edge flipped. -/
def reverseEdges (edges : List (ℕ × ℕ)) : List (ℕ × ℕ) :=
  edges.map (fun e => (e.2, e.1))

/-- Successors of `v` along an edge list. -/
def succList (edges : List (ℕ × ℕ)) (v : ℕ) : List ℕ :=
  (edges.filter (fun e => e.1 = v)).map (fun e => e.2)

/-- One breadth-first expansion step of a visited set. -/
def expandSet (edges : List (ℕ × ℕ)) (s : Finset ℕ) : Finset ℕ :=
  s ∪ s.biUnion (fun v => (succList edges v).toFinset)

/-- Vertices reachable from `root` within `fuel` expansion steps;
`gt.shortest_distance` marks exactly the reachable vertices finite, and
on a graph with at most `fuel` vertices the expansion stabilizes. -/
def reachSet (edges : List (ℕ × ℕ)) (root fuel : ℕ) : Finset ℕ :=
  (expandSet edges)^[fuel] {root}

/-- `generate_rr_set(g, p_map)` from `ris.py`: a zero-vertex graph yields
the empty set before any randomness is consumed; otherwise the uniform
draws select the live edges, the graph is reversed, and the set of
vertices reachable from the (uniformly drawn) root is returned. -/
def generate_rr_set (g : Digraph) (p : List ℚ) (root : ℕ) (draws : List ℚ) : Finset ℕ :=
  if g.n = 0 then ∅
  else reachSet (reverseEdges (liveEdges g.edges p draws)) root g.n

/-- Character-list test that `needle` is a leading run of `hay`. -/
def startsWithL : List Char → List Char → Bool
  | [], _ => true
  | _ :: _, [] => false
  | a :: as, b :: bs => a == b && startsWithL as bs

/-- Python substring test (`needle in hay`). -/
def hasSubstr (needle : List Char) : List Char → Bool
  | [] => needle.isEmpty
  | h :: t => startsWithL needle (h :: t) || hasSubstr needle t

/-- The value-type validation of `ris.py` line 69: accept any type whose
name contains `float` or `double`. -/
def isFloatKind (t : String) : Bool :=
  hasSubstr "float".toList t.toList || hasSubstr "double".toList t.toList

/-- `g.edge_properties[name]` (a `KeyError` if absent, modelled as `none`). -/
def lookupProp (props : List (String × EdgeProp)) (name : String) : Option EdgeProp :=
  (props.find? (fun kv => kv.1 == name)).map (fun kv => kv.2)

/-- `generate_rr_sets_collection(g, num_samples)` from `ris.py`:
non-positive `num_samples` returns an empty list before any validation;
then the `p` property map is looked up (`ValueError` if missing) and its
kind checked (`TypeError` unless floating-point); only then are exactly
`num_samples` samples drawn in call order.  The randomness each sampler
call consumes (its root and its per-edge uniforms) is indexed by the
sample number. -/
def generate_rr_sets_collection (g : Digraph) (props : List (String × EdgeProp))
    (num_samples : ℤ) (roots : ℕ → ℕ) (draws : ℕ → List ℚ) :
    Except RisError (List (Finset ℕ)) :=
  if num_samples ≤ 0 then .ok []
  else
    match lookupProp props "p" with
    | none => .error .valueError
    | some pm =>
      if isFloatKind pm.value_type then
        .ok ((List.range num_samples.toNat).map
          (fun i => generate_rr_set g pm.values (roots i) (draws i)))
      else .error .typeError

/-- The edge relation of a graph: `edgeRel edges u v` iff the directed
edge `(u, v)` is present. -/
def edgeRel (edges : List (ℕ × ℕ)) (u v : ℕ) : Prop := (u, v) ∈ edges

/-- Specification-side definition (spec §3 RRSet, §8): the deterministic
ancestor set of `root` — all vertices from which `root` is reachable by
following edges forward, with no sampling. -/
def ancestorSet (edges : List (ℕ × ℕ)) (root : ℕ) : Set ℕ :=
  {v | Relation.ReflTransGen (edgeRel edges) v root}

/-! ## List helper lemmas -/

theorem getD_set_self (l : List ℤ) (i : ℕ) (a : ℤ) (h : i < l.length) :
    (l.set i a).getD i 0 = a := by
  simp [List.getD_eq_getElem?_getD, List.getElem?_set, h]

theorem getD_set_ne (l : List ℤ) (i j : ℕ) (a : ℤ) (h : i ≠ j) :
    (l.set i a).getD j 0 = l.getD j 0 := by
  simp [List.getD_eq_getElem?_getD, List.getElem?_set, h]

theorem getD_map_range (n v : ℕ) (f : ℕ → ℤ) (h : v < n) :
    ((List.range n).map f).getD v 0 = f v := by
  rw [List.getD_eq_getElem?_getD]
  simp [List.getElem?_map, List.getElem?_range, h]

theorem getDB_set_self (l : List Bool) (i : ℕ) (a : Bool) (h : i < l.length) :
    (l.set i a).getD i false = a := by
  simp [List.getD_eq_getElem?_getD, List.getElem?_set, h]

theorem getDB_set_ne (l : List Bool) (i j : ℕ) (a : Bool) (h : i ≠ j) :
    (l.set i a).getD j false = l.getD j false := by
  simp [List.getD_eq_getElem?_getD, List.getElem?_set, h]

theorem getD_replicate_false (m i : ℕ) (h : i < m) :
    (List.replicate m false).getD i false = false := by
  simp [List.getD_eq_getElem?_getD, List.getElem?_replicate, h]

/-- Flipping one counted index from true to false drops the filtered length
by exactly one. -/
theorem length_filter_range_flip (p q : ℕ → Bool) :
    ∀ (m i : ℕ), i < m → (∀ j, j ≠ i → p j = q j) → p i = true → q i = false →
    ((List.range m).filter p).length = ((List.range m).filter q).length + 1 := by
  intro m
  induction m with
  | zero => intro i hi; omega
  | succ m ih =>
    intro i hi hpq hpi hqi
    rw [List.range_succ, List.filter_append, List.filter_append,
      List.length_append, List.length_append]
    by_cases him : i = m
    · have hcong : (List.range m).filter p = (List.range m).filter q := by
        apply List.filter_congr
        intro j hj
        apply hpq
        intro hji
        rw [List.mem_range] at hj
        omega
      rw [hcong]
      have hpm : p m = true := him ▸ hpi
      have hqm : q m = false := him ▸ hqi
      simp [List.filter, hpm, hqm]
    · have hi' : i < m := by omega
      rw [ih i hi' hpq hpi hqi]
      have : p m = q m := hpq m (by omega)
      simp [List.filter]
      rw [this]
      cases hq : q m <;> simp [Nat.add_assoc, Nat.add_comm 1]

/-! ## `argmaxIdx` lemmas: np.argmax returns the first index attaining the max -/

theorem argmaxIdx_lt_length : ∀ (l : List ℤ), l ≠ [] → argmaxIdx l < l.length
  | [_], _ => by simp [argmaxIdx]
  | x :: y :: xs, _ => by
    have ih := argmaxIdx_lt_length (y :: xs) (by simp)
    simp only [argmaxIdx]
    split
    · simpa using Nat.succ_lt_succ ih
    · simp

theorem argmaxIdx_is_max : ∀ (l : List ℤ), ∀ i < l.length,
    l.getD i 0 ≤ l.getD (argmaxIdx l) 0
  | [], _, h => by simp at h
  | [x], i, h => by
    match i with
    | 0 => simp [argmaxIdx]
    | i + 1 => simp at h
  | x :: y :: xs, i, h => by
    have ih := argmaxIdx_is_max (y :: xs)
    simp only [argmaxIdx]
    split
    · rename_i hgt
      rw [List.getD_cons_succ]
      match i with
      | 0 => exact le_of_lt (by simpa using hgt)
      | i + 1 =>
        rw [List.getD_cons_succ]
        exact ih i (by simpa using h)
    · rename_i hle
      push_neg at hle
      rw [List.getD_cons_zero]
      match i with
      | 0 => simp
      | i + 1 =>
        rw [List.getD_cons_succ]
        exact le_trans (ih i (by simpa using h)) hle

theorem argmaxIdx_first : ∀ (l : List ℤ), ∀ m < argmaxIdx l,
    l.getD m 0 < l.getD (argmaxIdx l) 0
  | [], m, h => by simp [argmaxIdx] at h
  | [x], m, h => by simp [argmaxIdx] at h
  | x :: y :: xs, m, h => by
    have ih := argmaxIdx_first (y :: xs)
    simp only [argmaxIdx] at h ⊢
    split
    · rename_i hgt
      rw [List.getD_cons_succ]
      match m with
      | 0 => simpa using hgt
      | m + 1 =>
        rw [List.getD_cons_succ]
        rw [if_pos hgt] at h
        exact ih m (by omega)
    · rename_i hle
      rw [if_neg hle] at h
      omega

theorem uncovCount_nonneg (rrSets : List (Finset ℕ)) (covered : List Bool) (v : ℕ) :
    0 ≤ uncovCount rrSets covered v :=
  Int.natCast_nonneg _

theorem goodState_init (rrSets : List (Finset ℕ)) (n : ℕ) :
    GoodState rrSets n (initState rrSets n) where
  glen := by simp [initState, initGains]
  clen := by simp [initState]
  sel := by simp [initState]
  unsel := by
    intro v hv _
    show (initGains rrSets n).getD v 0 =
      uncovCount rrSets (List.replicate rrSets.length false) v
    rw [initGains, getD_map_range _ _ _ hv]
    unfold uncovCount nodeToRRIndices
    rw [if_pos hv]
    congr 1
    apply congrArg
    apply List.filter_congr
    intro i hi
    rw [List.mem_range] at hi
    show decide (v ∈ rrSets.getD i ∅) =
      (decide (v ∈ rrSets.getD i ∅) && !(List.replicate rrSets.length false).getD i false)
    rw [getD_replicate_false _ _ hi]
    simp

theorem decGainsList_length (S : Finset ℕ) :
    ∀ (off : ℕ) (l : List ℤ), (decGainsList S off l).length = l.length
  | _, [] => rfl
  | off, _ :: rest => by
    simp only [decGainsList, List.length_cons]
    rw [decGainsList_length S (off + 1) rest]

theorem decGainsList_getD (S : Finset ℕ) :
    ∀ (off : ℕ) (l : List ℤ) (i : ℕ), i < l.length →
    (decGainsList S off l).getD i 0 =
      if (off + i) ∈ S ∧ l.getD i 0 ≠ -1 then l.getD i 0 - 1 else l.getD i 0
  | off, g :: rest, 0, _ => by simp [decGainsList]
  | off, g :: rest, i + 1, h => by
    simp only [decGainsList, List.getD_cons_succ]
    rw [decGainsList_getD S (off + 1) rest i (by simpa using h)]
    have : off + (i + 1) = off + 1 + i := by omega
    rw [this]

/-- Covering one previously uncovered RR set and running the decrement
pass preserves the selection-loop invariant. -/
theorem decStep_good {rrSets : List (Finset ℕ)} {n : ℕ} {gains : List ℤ}
    {covered : List Bool} {seeds : List ℕ} {i : ℕ}
    (hG : GoodState rrSets n ⟨gains, covered, seeds⟩)
    (hi : i < rrSets.length) (hunc : covered.getD i false = false) :
    GoodState rrSets n
      ⟨decGainsList (rrSets.getD i ∅) 0 gains, covered.set i true, seeds⟩ where
  glen := by rw [decGainsList_length]; exact hG.glen
  clen := by rw [List.length_set]; exact hG.clen
  sel := by
    intro v hv
    obtain ⟨hvn, hvg⟩ := hG.sel v hv
    refine ⟨hvn, ?_⟩
    rw [decGainsList_getD _ 0 gains v (by rw [hG.glen]; exact hvn)]
    simp only [Nat.zero_add, hvg]
    simp
  unsel := by
    intro v hvn hvs
    have hold := hG.unsel v hvn hvs
    have hlen : v < gains.length := by rw [hG.glen]; exact hvn
    rw [decGainsList_getD _ 0 gains v hlen, Nat.zero_add, hold]
    have hnn : uncovCount rrSets covered v ≠ -1 := by
      have := uncovCount_nonneg rrSets covered v
      omega
    have hic : i < covered.length := by rw [hG.clen]; exact hi
    by_cases hvS : v ∈ rrSets.getD i ∅
    · rw [if_pos ⟨hvS, hnn⟩]
      unfold uncovCount
      have hflip := length_filter_range_flip
        (fun j => decide (v ∈ rrSets.getD j ∅) && !(covered.getD j false))
        (fun j => decide (v ∈ rrSets.getD j ∅) && !((covered.set i true).getD j false))
        rrSets.length i hi
        (by
          intro j hj
          show (decide (v ∈ rrSets.getD j ∅) && !(covered.getD j false)) =
            (decide (v ∈ rrSets.getD j ∅) && !((covered.set i true).getD j false))
          rw [getDB_set_ne covered i j true (fun h => hj h.symm)])
        (by
          show (decide (v ∈ rrSets.getD i ∅) && !(covered.getD i false)) = true
          rw [hunc, decide_eq_true hvS]
          rfl)
        (by
          show (decide (v ∈ rrSets.getD i ∅) && !((covered.set i true).getD i false)) = false
          rw [getDB_set_self covered i true hic, decide_eq_true hvS]
          rfl)
      rw [hflip]
      push_cast
      ring
    · rw [if_neg (fun h => hvS h.1)]
      unfold uncovCount
      congr 1
      apply congrArg
      apply List.filter_congr
      intro j _
      show (decide (v ∈ rrSets.getD j ∅) && !(covered.getD j false)) =
        (decide (v ∈ rrSets.getD j ∅) && !((covered.set i true).getD j false))
      by_cases hji : j = i
      · subst hji
        rw [decide_eq_false hvS]
        rfl
      · rw [getDB_set_ne covered i j true (fun h => hji h.symm)]

/-- The covering loop over a list of valid RR-set indices never goes out
of bounds and preserves the invariant (seed list unchanged). -/
theorem coverAndDecrement_good {rrSets : List (Finset ℕ)} {n : ℕ} {seeds : List ℕ}
    (hIB : InBounds rrSets n) :
    ∀ (idxs : List ℕ) (gains : List ℤ) (covered : List Bool),
    (∀ i ∈ idxs, i < rrSets.length) →
    GoodState rrSets n ⟨gains, covered, seeds⟩ →
    ∃ g' c', coverAndDecrement rrSets idxs (gains, covered) = .ok (g', c') ∧
      GoodState rrSets n ⟨g', c', seeds⟩
  | [], gains, covered, _, hG => ⟨gains, covered, rfl, hG⟩
  | i :: rest, gains, covered, hidx, hG => by
    have hi : i < rrSets.length := hidx i (List.mem_cons_self i rest)
    have hstep : coverAndDecrement rrSets (i :: rest) (gains, covered) =
        if covered.getD i false then coverAndDecrement rrSets rest (gains, covered)
        else
          match decrementSet (rrSets.getD i ∅) gains with
          | .error e => .error e
          | .ok gains' => coverAndDecrement rrSets rest (gains', covered.set i true) := rfl
    by_cases hc : covered.getD i false = true
    · obtain ⟨g', c', hok, hG'⟩ := coverAndDecrement_good hIB rest gains covered
        (fun j hj => hidx j (List.mem_cons_of_mem _ hj)) hG
      refine ⟨g', c', ?_, hG'⟩
      rw [hstep, if_pos hc]
      exact hok
    · rw [Bool.not_eq_true] at hc
      have hbound : ∀ v ∈ rrSets.getD i ∅, v < gains.length := by
        intro v hv
        rw [hG.glen]
        exact hIB (rrSets.getD i ∅)
          (by rw [List.getD_eq_getElem rrSets ∅ hi]; exact List.getElem_mem hi) v hv
      have hdec : decrementSet (rrSets.getD i ∅) gains =
          .ok (decGainsList (rrSets.getD i ∅) 0 gains) := by
        unfold decrementSet
        rw [if_pos hbound]
      have hG2 := decStep_good hG hi hc
      obtain ⟨g', c', hok, hG'⟩ := coverAndDecrement_good hIB rest
        (decGainsList (rrSets.getD i ∅) 0 gains) (covered.set i true)
        (fun j hj => hidx j (List.mem_cons_of_mem _ hj)) hG2
      refine ⟨g', c', ?_, hG'⟩
      rw [hstep, if_neg (by rw [hc]; exact Bool.false_ne_true), hdec]
      exact hok

theorem nodeToRRIndices_lt (rrSets : List (Finset ℕ)) (n v : ℕ) :
    ∀ i ∈ nodeToRRIndices rrSets n v, i < rrSets.length := by
  intro i hi
  unfold nodeToRRIndices at hi
  split at hi
  · rw [List.mem_filter] at hi
    exact List.mem_range.mp hi.1
  · simp at hi

/-- After `seed_set.append(best_node)` and `marginal_gains[best_node] = -1`
(but before the update loop) the invariant still holds. -/
theorem midState_good {rrSets : List (Finset ℕ)} {n : ℕ} {st : SelState}
    (hG : GoodState rrSets n st) (hne : st.gains ≠ []) :
    GoodState rrSets n
      ⟨st.gains.set (argmaxIdx st.gains) (-1), st.covered,
        st.seeds ++ [argmaxIdx st.gains]⟩ where
  glen := by rw [List.length_set]; exact hG.glen
  clen := hG.clen
  sel := by
    intro v hv
    have hbn : argmaxIdx st.gains < n := by
      rw [← hG.glen]; exact argmaxIdx_lt_length st.gains hne
    rw [List.mem_append] at hv
    rcases hv with hv | hv
    · obtain ⟨hvn, hvg⟩ := hG.sel v hv
      refine ⟨hvn, ?_⟩
      by_cases hvb : argmaxIdx st.gains = v
      · rw [← hvb] at hvn ⊢
        exact getD_set_self st.gains _ (-1) (by rw [hG.glen]; exact hvn)
      · rw [getD_set_ne st.gains _ v (-1) hvb]
        exact hvg
    · rw [List.mem_singleton] at hv
      subst hv
      exact ⟨hbn, getD_set_self st.gains _ (-1) (by rw [hG.glen]; exact hbn)⟩
  unsel := by
    intro v hvn hvs
    rw [List.mem_append, List.mem_singleton] at hvs
    push_neg at hvs
    rw [getD_set_ne st.gains _ v (-1) (fun h => hvs.2 h.symm)]
    exact hG.unsel v hvn hvs.1

/-- Unfolding of one selection iteration: the three possible outcomes. -/
theorem greedyStep_cases {rrSets : List (Finset ℕ)} {n : ℕ} {st : SelState}
    (hIB : InBounds rrSets n) (hG : GoodState rrSets n st) :
    (greedyStep rrSets n st = .error .emptyArgmax ∧ st.gains = []) ∨
    greedyStep rrSets n st = .ok none ∨
    (∃ st', greedyStep rrSets n st = .ok (some st') ∧ GoodState rrSets n st' ∧
      st'.seeds = st.seeds ++ [argmaxIdx st.gains]) := by
  have hstep : greedyStep rrSets n st =
      (if st.gains.isEmpty then .error .emptyArgmax
       else if st.gains.getD (argmaxIdx st.gains) 0 = 0 then .ok none
       else
         match coverAndDecrement rrSets (nodeToRRIndices rrSets n (argmaxIdx st.gains))
             (st.gains.set (argmaxIdx st.gains) (-1), st.covered) with
         | .error e => .error e
         | .ok (g2, c2) => .ok (some ⟨g2, c2, st.seeds ++ [argmaxIdx st.gains]⟩)) := rfl
  by_cases hemp : st.gains.isEmpty
  · left
    rw [hstep, if_pos hemp]
    exact ⟨rfl, List.isEmpty_iff.mp hemp⟩
  · have hne : st.gains ≠ [] := fun h => hemp (by rw [h]; rfl)
    by_cases hz : st.gains.getD (argmaxIdx st.gains) 0 = 0
    · right; left
      rw [hstep, if_neg hemp, if_pos hz]
    · right; right
      have hGmid := midState_good hG hne
      obtain ⟨g', c', hok, hG'⟩ := coverAndDecrement_good hIB
        (nodeToRRIndices rrSets n (argmaxIdx st.gains))
        (st.gains.set (argmaxIdx st.gains) (-1)) st.covered
        (nodeToRRIndices_lt rrSets n (argmaxIdx st.gains)) hGmid
      refine ⟨⟨g', c', st.seeds ++ [argmaxIdx st.gains]⟩, ?_, hG', rfl⟩
      rw [hstep, if_neg hemp, if_neg hz, hok]

/-- A successful iteration appends exactly the argmax vertex, and the
gains array was nonempty. -/
theorem greedyStep_ok_some {rrSets : List (Finset ℕ)} {n : ℕ} {st st' : SelState}
    (h : greedyStep rrSets n st = .ok (some st')) :
    st.gains ≠ [] ∧ st'.seeds = st.seeds ++ [argmaxIdx st.gains] := by
  unfold greedyStep at h
  split at h
  · cases h
  · rename_i hemp
    refine ⟨fun hnil => hemp (by rw [hnil]; rfl), ?_⟩
    split at h
    · cases h
    · split at h
      · cases h
      · injection h with h
        injection h with h
        rw [← h]

theorem greedyRun_good {rrSets : List (Finset ℕ)} {n : ℕ} (hIB : InBounds rrSets n) :
    ∀ (k : ℕ) (st : SelState), GoodState rrSets n st →
    greedyRun rrSets n k st ≠ .error .oobAccess ∧
    (∀ st', greedyRun rrSets n k st = .ok st' → GoodState rrSets n st')
  | 0, st, hG => by
    constructor
    · intro h; cases h
    · intro st' h
      injection h with h
      rw [← h]
      exact hG
  | k + 1, st, hG => by
    have hrun : greedyRun rrSets n (k + 1) st =
        (match greedyStep rrSets n st with
         | .error e => .error e
         | .ok none => .ok st
         | .ok (some st') => greedyRun rrSets n k st') := rfl
    rcases greedyStep_cases hIB hG with ⟨hs, _⟩ | hs | ⟨st1, hs, hG1, _⟩
    · rw [hrun, hs]
      refine ⟨fun h => ?_, fun st' h => by cases h⟩
      injection h with h
      cases h
    · rw [hrun, hs]
      refine ⟨?_, fun st' h => ?_⟩
      · intro h
        cases h
      · injection h with h
        rw [← h]
        exact hG
    · rw [hrun, hs]
      exact greedyRun_good hIB k st1 hG1

theorem isPrefix_rfl (l : List ℕ) : l <+: l := ⟨[], by simp⟩

theorem isPrefix_nil (l : List ℕ) : [] <+: l := ⟨l, rfl⟩

theorem isPrefix_app (l t : List ℕ) : l <+: l ++ t := ⟨t, rfl⟩

/-- Along a run, the seed list only grows at the end. -/
theorem greedyRun_seeds_grow {rrSets : List (Finset ℕ)} {n : ℕ} :
    ∀ (k : ℕ) (st st' : SelState), greedyRun rrSets n k st = .ok st' →
    st.seeds <+: st'.seeds
  | 0, st, st', h => by
    injection h with h
    rw [← h]
  | k + 1, st, st', h => by
    have hrun : greedyRun rrSets n (k + 1) st =
        (match greedyStep rrSets n st with
         | .error e => .error e
         | .ok none => .ok st
         | .ok (some st1) => greedyRun rrSets n k st1) := rfl
    rw [hrun] at h
    cases hs : greedyStep rrSets n st with
    | error e =>
      rw [hs] at h
      cases h
    | ok o =>
      cases o with
      | none =>
        rw [hs] at h
        injection h with h
        rw [← h]
      | some st1 =>
        rw [hs] at h
        have happ := (greedyStep_ok_some hs).2
        have hrec := greedyRun_seeds_grow k st1 st' h
        rw [happ] at hrec
        exact (isPrefix_app st.seeds [argmaxIdx st.gains]).trans hrec

/-- One extra unit of budget only ever extends the final seed list. -/
theorem greedyRun_budget_mono {rrSets : List (Finset ℕ)} {n : ℕ} :
    ∀ (k : ℕ) (st t t' : SelState),
    greedyRun rrSets n k st = .ok t → greedyRun rrSets n (k + 1) st = .ok t' →
    t.seeds <+: t'.seeds
  | 0, st, t, t', h0, h1 => by
    injection h0 with h0
    rw [← h0]
    exact greedyRun_seeds_grow 1 st t' h1
  | k + 1, st, t, t', h0, h1 => by
    have hrun0 : greedyRun rrSets n (k + 1) st =
        (match greedyStep rrSets n st with
         | .error e => .error e
         | .ok none => .ok st
         | .ok (some st1) => greedyRun rrSets n k st1) := rfl
    have hrun1 : greedyRun rrSets n (k + 1 + 1) st =
        (match greedyStep rrSets n st with
         | .error e => .error e
         | .ok none => .ok st
         | .ok (some st1) => greedyRun rrSets n (k + 1) st1) := rfl
    rw [hrun0] at h0
    rw [hrun1] at h1
    cases hs : greedyStep rrSets n st with
    | error e =>
      rw [hs] at h0
      cases h0
    | ok o =>
      cases o with
      | none =>
        rw [hs] at h0 h1
        injection h0 with h0
        injection h1 with h1
        rw [← h0, ← h1]
      | some st1 =>
        rw [hs] at h0 h1
        exact greedyRun_budget_mono k st1 t t' h0 h1

/-! ## Claim theorems about `find_seed_set` -/

/-- C1 (code bug).  The claim says `find_seed_set` never selects a vertex
twice and never selects a vertex of non-positive gain; but once every
vertex has been selected (every gain is the `-1` sentinel) `np.argmax`
returns a sentinel entry and the `== 0` stop check does not fire, so with
`rr_sets = [{0}]`, `k = 2`, `num_vertices = 1` the code selects vertex 0
twice (at gain `-1` the second time), contradicting the code's own comment
that the sentinel "prevents it from being selected again". -/
theorem find_seed_set_reselects_exhausted_vertex :
    find_seed_set [({0} : Finset ℕ)] 2 1 = .ok [0, 0] ∧
      ¬ ([0, 0] : List ℕ).Nodup := by
  exact ⟨rfl, by decide⟩

/-- C2.  Gain-table invariant: for in-bounds inputs, after every selector
iteration every non-selected vertex's `marginal_gains` entry equals the
number of RR sets that contain it and are not yet covered. -/
theorem gain_table_invariant {rrSets : List (Finset ℕ)} {n : ℕ}
    (hIB : InBounds rrSets n) (k : ℕ) (st : SelState)
    (hrun : greedyRun rrSets n k (initState rrSets n) = .ok st) :
    ∀ v < n, v ∉ st.seeds → st.gains.getD v 0 = uncovCount rrSets st.covered v :=
  (((greedyRun_good hIB k (initState rrSets n) (goodState_init rrSets n)).2) st hrun).unsel

/-- C6.  Tie-break rule: the vertex selected by an iteration of
`find_seed_set` maximizes the current marginal-gain table and, among the
vertices attaining that maximum, has the smallest vertex id (every smaller
id has strictly smaller gain). -/
theorem greedy_selects_first_argmax {rrSets : List (Finset ℕ)} {n : ℕ}
    {st st' : SelState} (h : greedyStep rrSets n st = .ok (some st')) :
    ∃ v, st'.seeds = st.seeds ++ [v] ∧
      (∀ i < st.gains.length, st.gains.getD i 0 ≤ st.gains.getD v 0) ∧
      (∀ m < v, st.gains.getD m 0 < st.gains.getD v 0) := by
  obtain ⟨hne, happ⟩ := greedyStep_ok_some h
  exact ⟨argmaxIdx st.gains, happ, argmaxIdx_is_max st.gains, argmaxIdx_first st.gains⟩

/-- C7.  Budget monotonicity: when `find_seed_set` returns normally for
budgets `k` and `k + 1` on the same collection, the seed list for `k`
is a prefix of the one for `k + 1`. -/
theorem find_seed_set_budget_mono {rrSets : List (Finset ℕ)} {k n : ℕ}
    {s s' : List ℕ} (h : find_seed_set rrSets k n = .ok s)
    (h' : find_seed_set rrSets (k + 1) n = .ok s') : s <+: s' := by
  unfold find_seed_set at h h'
  by_cases hr : rrSets = []
  · rw [if_pos (Or.inl hr)] at h
    injection h with h
    rw [← h]
    exact isPrefix_nil s'
  · by_cases hk : k = 0
    · rw [if_pos (Or.inr hk)] at h
      injection h with h
      rw [← h]
      exact isPrefix_nil s'
    · rw [if_neg (fun hor => hor.elim hr hk)] at h
      rw [if_neg (fun hor => hor.elim hr (Nat.succ_ne_zero k))] at h'
      cases hrun : greedyRun rrSets n k (initState rrSets n) with
      | error e =>
        rw [hrun] at h
        cases h
      | ok t =>
        cases hrun' : greedyRun rrSets n (k + 1) (initState rrSets n) with
        | error e =>
          rw [hrun'] at h'
          cases h'
        | ok t' =>
          rw [hrun] at h
          rw [hrun'] at h'
          injection h with h
          injection h' with h'
          rw [← h, ← h']
          exact greedyRun_budget_mono k (initState rrSets n) t t' hrun hrun'

/-- C9.  In-bounds safety: when every vertex id occurring in an RR set is
below `num_vertices`, no access to `marginal_gains` is out of bounds —
the out-of-bounds error branch of the embedding is unreachable. -/
theorem find_seed_set_no_oob {rrSets : List (Finset ℕ)} {n : ℕ} (k : ℕ)
    (hIB : InBounds rrSets n) :
    find_seed_set rrSets k n ≠ .error .oobAccess := by
  unfold find_seed_set
  split
  · intro h
    cases h
  · cases hrun : greedyRun rrSets n k (initState rrSets n) with
    | error e =>
      intro h
      have hno := (greedyRun_good hIB k (initState rrSets n) (goodState_init rrSets n)).1
      rw [hrun] at hno
      have h2 : (Except.error e : Except CovErr (List ℕ)) = .error .oobAccess := h
      injection h2 with h2
      rw [h2] at hno
      exact hno rfl
    | ok st =>
      intro h
      have h2 : (Except.ok st.seeds : Except CovErr (List ℕ)) = .error .oobAccess := h
      cases h2

/-- Witness for C2: on `rr_sets = [{0,1},{1}]`, `num_vertices = 2`, after
one iteration (which selects vertex 1 and covers both sets) the gain of
the non-selected vertex 0 is its uncovered count. -/
theorem gain_table_invariant_witness :
    ([0, -1] : List ℤ).getD 0 0 =
      uncovCount [({0, 1} : Finset ℕ), {1}] [true, true] 0 :=
  @gain_table_invariant [({0, 1} : Finset ℕ), {1}] 2 (by decide) 1
    ⟨[0, -1], [true, true], [1]⟩ (by decide) 0 (by decide) (by decide)

/-- Witness for C6: the first iteration on `[{0,1},{1}]` selects vertex 1,
the unique maximizer of the initial gain table `[1, 2]`. -/
theorem greedy_selects_first_argmax_witness :
    ∃ v, ([1] : List ℕ) = [] ++ [v] ∧
      (∀ i < ([1, 2] : List ℤ).length, ([1, 2] : List ℤ).getD i 0 ≤ ([1, 2] : List ℤ).getD v 0) ∧
      (∀ m < v, ([1, 2] : List ℤ).getD m 0 < ([1, 2] : List ℤ).getD v 0) :=
  @greedy_selects_first_argmax [({0, 1} : Finset ℕ), {1}] 2
    ⟨[1, 2], [false, false], []⟩ ⟨[0, -1], [true, true], [1]⟩ (by decide)

/-- Witness for C7: on `[{0,1},{1}]` with `num_vertices = 2`, budget 1
returns `[1]` and budget 2 also returns `[1]` (early stop), a prefix. -/
theorem find_seed_set_budget_mono_witness : ([1] : List ℕ) <+: [1] :=
  @find_seed_set_budget_mono [({0, 1} : Finset ℕ), {1}] 1 2 [1] [1]
    (by decide) (by decide)

/-- Witness for C9: an in-bounds instance never reaches the out-of-bounds
error branch. -/
theorem find_seed_set_no_oob_witness :
    find_seed_set [({0, 1} : Finset ℕ), {1}] 3 2 ≠ .error .oobAccess :=
  @find_seed_set_no_oob [({0, 1} : Finset ℕ), {1}] 2 3 (by decide)

/-! ## Reachability of `reachSet` -/

theorem mem_succList {edges : List (ℕ × ℕ)} {v w : ℕ} :
    w ∈ succList edges v ↔ (v, w) ∈ edges := by
  unfold succList
  rw [List.mem_map]
  constructor
  · rintro ⟨e, he, rfl⟩
    rw [List.mem_filter] at he
    obtain ⟨he, hv⟩ := he
    have : e.1 = v := by simpa using hv
    rwa [← this]
  · intro h
    exact ⟨(v, w), List.mem_filter.mpr ⟨h, by simp⟩, rfl⟩

theorem mem_expandSet {edges : List (ℕ × ℕ)} {s : Finset ℕ} {w : ℕ} :
    w ∈ expandSet edges s ↔ w ∈ s ∨ ∃ v ∈ s, (v, w) ∈ edges := by
  unfold expandSet
  rw [Finset.mem_union, Finset.mem_biUnion]
  constructor
  · rintro (h | ⟨v, hv, hw⟩)
    · exact Or.inl h
    · exact Or.inr ⟨v, hv, mem_succList.mp (List.mem_toFinset.mp hw)⟩
  · rintro (h | ⟨v, hv, hw⟩)
    · exact Or.inl h
    · exact Or.inr ⟨v, hv, List.mem_toFinset.mpr (mem_succList.mpr hw)⟩

theorem root_mem_reachSet {edges : List (ℕ × ℕ)} {root : ℕ} :
    ∀ fuel, root ∈ reachSet edges root fuel
  | 0 => by
    unfold reachSet
    simp
  | fuel + 1 => by
    unfold reachSet
    rw [Function.iterate_succ_apply']
    exact mem_expandSet.mpr (Or.inl (root_mem_reachSet fuel))

theorem reachSet_sound {edges : List (ℕ × ℕ)} {root : ℕ} :
    ∀ (fuel w : ℕ), w ∈ reachSet edges root fuel →
    Relation.ReflTransGen (edgeRel edges) root w
  | 0, w, h => by
    unfold reachSet at h
    simp only [Function.iterate_zero, id, Finset.mem_singleton] at h
    rw [h]
  | fuel + 1, w, h => by
    rw [reachSet, Function.iterate_succ_apply'] at h
    rw [mem_expandSet] at h
    rcases h with h | ⟨v, hv, hw⟩
    · exact reachSet_sound fuel w h
    · exact (reachSet_sound fuel v hv).tail hw

theorem reachSet_subset_range {edges : List (ℕ × ℕ)} {n root : ℕ}
    (hroot : root < n) (hedges : ∀ e ∈ edges, e.2 < n) :
    ∀ fuel, reachSet edges root fuel ⊆ Finset.range n
  | 0 => by
    unfold reachSet
    simp [Finset.singleton_subset_iff, hroot]
  | fuel + 1 => by
    rw [reachSet, Function.iterate_succ_apply']
    intro w hw
    rw [mem_expandSet] at hw
    rcases hw with hw | ⟨v, _, hw⟩
    · exact reachSet_subset_range hroot hedges fuel hw
    · rw [Finset.mem_range]
      exact hedges (v, w) hw

theorem expandSet_mono {edges : List (ℕ × ℕ)} {s t : Finset ℕ} (h : s ⊆ t) :
    expandSet edges s ⊆ expandSet edges t := by
  intro w hw
  rw [mem_expandSet] at hw ⊢
  rcases hw with hw | ⟨v, hv, hw⟩
  · exact Or.inl (h hw)
  · exact Or.inr ⟨v, h hv, hw⟩

theorem reachSet_mono_fuel {edges : List (ℕ × ℕ)} {root : ℕ} :
    ∀ fuel, reachSet edges root fuel ⊆ reachSet edges root (fuel + 1)
  | 0 => by
    unfold reachSet
    rw [Function.iterate_succ_apply']
    simp only [Function.iterate_zero, id]
    exact Finset.subset_union_left
  | fuel + 1 => by
    rw [reachSet, reachSet, Function.iterate_succ_apply',
      Function.iterate_succ_apply' _ (fuel + 1)]
    exact expandSet_mono (reachSet_mono_fuel fuel)

theorem reachSet_stable {edges : List (ℕ × ℕ)} {root fuel : ℕ}
    (h : reachSet edges root (fuel + 1) = reachSet edges root fuel) :
    ∀ m, reachSet edges root (fuel + m) = reachSet edges root fuel
  | 0 => rfl
  | m + 1 => by
    have hstep : reachSet edges root (fuel + (m + 1)) =
        expandSet edges (reachSet edges root (fuel + m)) := by
      show (expandSet edges)^[fuel + m + 1] {root} = _
      rw [Function.iterate_succ_apply']
      rfl
    rw [hstep, reachSet_stable h m]
    show expandSet edges ((expandSet edges)^[fuel] {root}) = _
    rw [← Function.iterate_succ_apply' (expandSet edges) fuel {root}]
    exact h

theorem reachSet_card_grow {edges : List (ℕ × ℕ)} {root : ℕ} :
    ∀ fuel, (∀ j < fuel, reachSet edges root (j + 1) ≠ reachSet edges root j) →
    fuel + 1 ≤ (reachSet edges root fuel).card
  | 0, _ => by
    unfold reachSet
    simp
  | fuel + 1, hne => by
    have hss : reachSet edges root fuel ⊂ reachSet edges root (fuel + 1) :=
      ssubset_of_subset_of_ne (reachSet_mono_fuel fuel)
        (fun h => hne fuel (by omega) h.symm)
    have h1 := reachSet_card_grow fuel (fun j hj => hne j (by omega))
    have h2 := Finset.card_lt_card hss
    omega

/-- On a graph whose vertices all lie below `n`, `n` expansion steps
reach a fixed point of the expansion operator. -/
theorem reachSet_fix {edges : List (ℕ × ℕ)} {n root : ℕ} (hroot : root < n)
    (hedges : ∀ e ∈ edges, e.2 < n) :
    expandSet edges (reachSet edges root n) = reachSet edges root n := by
  by_cases hall : ∀ j < n, reachSet edges root (j + 1) ≠ reachSet edges root j
  · exfalso
    have h1 := reachSet_card_grow n hall
    have h2 : (reachSet edges root n).card ≤ n := by
      simpa using Finset.card_le_card (reachSet_subset_range hroot hedges n)
    omega
  · push_neg at hall
    obtain ⟨j, hj, heq⟩ := hall
    have hn : reachSet edges root n = reachSet edges root j := by
      have := reachSet_stable heq (n - j)
      rwa [Nat.add_sub_cancel' (le_of_lt hj)] at this
    rw [hn]
    show expandSet edges ((expandSet edges)^[j] {root}) = _
    rw [← Function.iterate_succ_apply' (expandSet edges) j {root}]
    exact heq

theorem reachSet_complete {edges : List (ℕ × ℕ)} {n root : ℕ} (hroot : root < n)
    (hedges : ∀ e ∈ edges, e.2 < n) {w : ℕ}
    (h : Relation.ReflTransGen (edgeRel edges) root w) :
    w ∈ reachSet edges root n := by
  induction h with
  | refl => exact root_mem_reachSet n
  | tail _ hbc ih =>
    have hmem : _ ∈ expandSet edges (reachSet edges root n) :=
      mem_expandSet.mpr (Or.inr ⟨_, ih, hbc⟩)
    rwa [reachSet_fix hroot hedges] at hmem

/-- `reachSet` with fuel `n` computes exactly the reflexive-transitive
closure of the edge relation from the root. -/
theorem mem_reachSet_iff {edges : List (ℕ × ℕ)} {n root : ℕ} (hroot : root < n)
    (hedges : ∀ e ∈ edges, e.2 < n) {w : ℕ} :
    w ∈ reachSet edges root n ↔ Relation.ReflTransGen (edgeRel edges) root w :=
  ⟨reachSet_sound n w, reachSet_complete hroot hedges⟩

/-! ## Live-edge and reversal lemmas -/

theorem expandSet_nil (s : Finset ℕ) : expandSet [] s = s := by
  ext w
  rw [mem_expandSet]
  simp

theorem liveEdges_subset {edges : List (ℕ × ℕ)} {p draws : List ℚ} :
    ∀ e ∈ liveEdges edges p draws, e ∈ edges := by
  intro e he
  unfold liveEdges at he
  obtain ⟨epu, hmem, hf⟩ := List.mem_filterMap.mp he
  obtain ⟨⟨e', pe⟩, u⟩ := epu
  by_cases hl : liveB pe u = true
  · rw [if_pos hl] at hf
    injection hf with hf
    rw [← hf]
    exact (List.of_mem_zip (List.of_mem_zip hmem).1).1
  · rw [if_neg hl] at hf
    cases hf

theorem liveEdges_nil {edges : List (ℕ × ℕ)} {p draws : List ℚ}
    (hp : ∀ pe ∈ p, pe = 0) (hd : ∀ u ∈ draws, 0 ≤ u) :
    liveEdges edges p draws = [] := by
  unfold liveEdges
  rw [List.filterMap_eq_nil_iff]
  intro epu hmem
  obtain ⟨⟨e, pe⟩, u⟩ := epu
  have hpe : pe = 0 := hp pe (List.of_mem_zip (List.of_mem_zip hmem).1).2
  have hu : 0 ≤ u := hd u (List.of_mem_zip hmem).2
  have hlb : liveB pe u = false := by
    unfold liveB
    rw [hpe]
    exact decide_eq_false (by linarith)
  show (if liveB pe u then some e else none) = none
  rw [hlb]
  rfl

theorem liveEdges_cons (e : ℕ × ℕ) (es : List (ℕ × ℕ)) (pe : ℚ) (ps : List ℚ)
    (u : ℚ) (us : List ℚ) :
    liveEdges (e :: es) (pe :: ps) (u :: us) =
      if liveB pe u then e :: liveEdges es ps us else liveEdges es ps us := by
  unfold liveEdges
  rw [List.zip_cons_cons, List.zip_cons_cons, List.filterMap_cons]
  cases hb : liveB pe u <;> simp [hb]

theorem liveEdges_all : ∀ (edges : List (ℕ × ℕ)) (p draws : List ℚ),
    p.length = edges.length → draws.length = edges.length →
    (∀ pe ∈ p, pe = 1) → (∀ u ∈ draws, u < 1) →
    liveEdges edges p draws = edges
  | [], p, draws, _, _, _, _ => by
    unfold liveEdges
    simp
  | e :: es, [], draws, h1, _, _, _ => by simp at h1
  | e :: es, pe :: ps, [], _, h2, _, _ => by simp at h2
  | e :: es, pe :: ps, u :: us, h1, h2, hp, hd => by
    rw [liveEdges_cons]
    have hpe : pe = 1 := hp pe (List.mem_cons_self pe ps)
    have hu : u < 1 := hd u (List.mem_cons_self u us)
    have hlb : liveB pe u = true := by
      unfold liveB
      rw [hpe]
      exact decide_eq_true hu
    rw [hlb, if_pos rfl,
      liveEdges_all es ps us (by simpa using h1) (by simpa using h2)
        (fun q hq => hp q (List.mem_cons_of_mem pe hq))
        (fun q hq => hd q (List.mem_cons_of_mem u hq))]

theorem mem_reverseEdges {edges : List (ℕ × ℕ)} {a b : ℕ} :
    (a, b) ∈ reverseEdges edges ↔ (b, a) ∈ edges := by
  unfold reverseEdges
  rw [List.mem_map]
  constructor
  · rintro ⟨⟨x, y⟩, he, heq⟩
    have h1 : y = a := congrArg Prod.fst heq
    have h2 : x = b := congrArg Prod.snd heq
    rw [← h1, ← h2]
    exact he
  · intro h
    exact ⟨(b, a), h, rfl⟩

theorem rtg_of_rev {edges : List (ℕ × ℕ)} {a b : ℕ}
    (h : Relation.ReflTransGen (edgeRel (reverseEdges edges)) a b) :
    Relation.ReflTransGen (edgeRel edges) b a := by
  induction h with
  | refl => exact Relation.ReflTransGen.refl
  | tail _ hbc ih => exact Relation.ReflTransGen.head (mem_reverseEdges.mp hbc) ih

theorem rtg_to_rev {edges : List (ℕ × ℕ)} {a b : ℕ}
    (h : Relation.ReflTransGen (edgeRel edges) a b) :
    Relation.ReflTransGen (edgeRel (reverseEdges edges)) b a := by
  induction h with
  | refl => exact Relation.ReflTransGen.refl
  | tail _ hbc ih => exact Relation.ReflTransGen.head (mem_reverseEdges.mpr hbc) ih

theorem rev_live_snd_lt (g : Digraph) (p draws : List ℚ) :
    ∀ e ∈ reverseEdges (liveEdges g.edges p draws), e.2 < g.n := by
  intro e he
  unfold reverseEdges at he
  obtain ⟨e', he', rfl⟩ := List.mem_map.mp he
  exact (g.valid e' (liveEdges_subset e' he')).1

theorem generate_rr_set_lt {g : Digraph} {p : List ℚ} {root : ℕ} {draws : List ℚ}
    (hroot : root < g.n) : ∀ v ∈ generate_rr_set g p root draws, v < g.n := by
  intro v hv
  unfold generate_rr_set at hv
  split at hv
  · cases hv
  · have := reachSet_subset_range hroot (rev_live_snd_lt g p draws) g.n hv
    rwa [Finset.mem_range] at this

/-! ## Claim theorems about `ris.py` -/

/-- C4.  Every RR set contains the drawn root (for a graph with at least
one vertex, the root being drawn by `randint(0, n)`), and on the
zero-vertex graph the sampler returns the empty set for every value of
the (never drawn) root and draw stream. -/
theorem generate_rr_set_root_mem :
    (∀ (g : Digraph) (p : List ℚ) (root : ℕ) (draws : List ℚ),
      1 ≤ g.n → root < g.n → root ∈ generate_rr_set g p root draws) ∧
    (∀ (g : Digraph) (p : List ℚ) (root : ℕ) (draws : List ℚ),
      g.n = 0 → generate_rr_set g p root draws = ∅) := by
  constructor
  · intro g p root draws hn _
    unfold generate_rr_set
    rw [if_neg (by omega)]
    exact root_mem_reachSet g.n
  · intro g p root draws hn
    unfold generate_rr_set
    rw [if_pos hn]

/-- Witness for C4, on the one-vertex and zero-vertex graphs. -/
theorem generate_rr_set_root_mem_witness :
    0 ∈ generate_rr_set ⟨1, [], by decide⟩ [] 0 [] ∧
    generate_rr_set ⟨0, [], by decide⟩ [] 5 [] = ∅ :=
  ⟨generate_rr_set_root_mem.1 ⟨1, [], by decide⟩ [] 0 [] (by decide) (by decide),
   generate_rr_set_root_mem.2 ⟨0, [], by decide⟩ [] 5 [] rfl⟩

/-- C5.  Live-edge rule: an edge is live iff its uniform draw is strictly
below its probability; hence with all probabilities 0 the RR set is
exactly `{root}`, and with all probabilities 1 it is exactly the
deterministic reverse-reachability ancestor set of the root. -/
theorem live_edge_rule :
    (∀ pe u : ℚ, liveB pe u = true ↔ u < pe) ∧
    (∀ (g : Digraph) (p draws : List ℚ) (root : ℕ),
      root < g.n → (∀ pe ∈ p, pe = 0) → (∀ u ∈ draws, 0 ≤ u) →
      generate_rr_set g p root draws = {root}) ∧
    (∀ (g : Digraph) (p draws : List ℚ) (root : ℕ),
      root < g.n → p.length = g.edges.length → draws.length = g.edges.length →
      (∀ pe ∈ p, pe = 1) → (∀ u ∈ draws, u < 1) →
      ↑(generate_rr_set g p root draws) = ancestorSet g.edges root) := by
  refine ⟨?_, ?_, ?_⟩
  · intro pe u
    unfold liveB
    rw [decide_eq_true_eq]
  · intro g p draws root hroot hp hd
    unfold generate_rr_set
    rw [if_neg (by omega), liveEdges_nil hp hd]
    show (expandSet (reverseEdges []))^[g.n] {root} = {root}
    exact Function.iterate_fixed (expandSet_nil {root}) g.n
  · intro g p draws root hroot hl1 hl2 hp hd
    unfold generate_rr_set
    rw [if_neg (by omega), liveEdges_all g.edges p draws hl1 hl2 hp hd]
    ext w
    rw [Finset.mem_coe,
      mem_reachSet_iff hroot (fun e he => (g.valid _ ((mem_reverseEdges (a := e.1) (b := e.2)).mp he)).1)]
    constructor
    · intro h
      exact rtg_of_rev h
    · intro h
      exact rtg_to_rev h

/-- Witness for C5, on the §8 scenario graph `0→1→2←3` with constant
probabilities. -/
theorem live_edge_rule_witness :
    (liveB 1 0 = true ↔ (0 : ℚ) < 1) ∧
    generate_rr_set ⟨4, [(0, 1), (1, 2), (3, 2)], by decide⟩ [0, 0, 0] 2
      [0, 0, 0] = {2} ∧
    ↑(generate_rr_set ⟨4, [(0, 1), (1, 2), (3, 2)], by decide⟩ [1, 1, 1] 2
      [0, 0, 0]) = ancestorSet [(0, 1), (1, 2), (3, 2)] 2 :=
  ⟨live_edge_rule.1 1 0,
   live_edge_rule.2.1 ⟨4, [(0, 1), (1, 2), (3, 2)], by decide⟩ [0, 0, 0]
     [0, 0, 0] 2 (by decide) (by decide) (by decide),
   live_edge_rule.2.2 ⟨4, [(0, 1), (1, 2), (3, 2)], by decide⟩ [1, 1, 1]
     [0, 0, 0] 2 (by decide) (by decide) (by decide) (by decide) (by decide)⟩

/-- C3 (counterexample).  The claim says validation fails for every
`num_samples`; but the `num_samples <= 0` early return at line 63 of
`ris.py` precedes the validation, so a graph with no probability
attribute and `num_samples = 0` yields an empty collection, no error. -/
theorem no_validation_for_nonpositive_samples :
    lookupProp [] "p" = none ∧
    generate_rr_sets_collection ⟨1, [], by decide⟩ [] 0 (fun _ => 0) (fun _ => []) =
      .ok [] :=
  ⟨rfl, rfl⟩

/-- C3 (amended).  For every `num_samples > 0`, a missing probability
attribute raises `ValueError` and a non-floating-point one raises
`TypeError`, in both cases before any sampling (no partial collection is
produced). -/
theorem validation_fails_fast {g : Digraph} {props : List (String × EdgeProp)}
    {ns : ℤ} {roots : ℕ → ℕ} {draws : ℕ → List ℚ} (hns : 0 < ns) :
    (lookupProp props "p" = none →
      generate_rr_sets_collection g props ns roots draws = .error .valueError) ∧
    (∀ pm, lookupProp props "p" = some pm → isFloatKind pm.value_type = false →
      generate_rr_sets_collection g props ns roots draws = .error .typeError) := by
  constructor
  · intro hlk
    unfold generate_rr_sets_collection
    rw [if_neg (by omega)]
    simp only [hlk]
  · intro pm hlk hfk
    unfold generate_rr_sets_collection
    rw [if_neg (by omega)]
    simp only [hlk, hfk]
    rfl

/-- Witness for the amended C3: a missing map and an `int32_t`-typed map,
at `num_samples = 1`. -/
theorem validation_fails_fast_witness :
    generate_rr_sets_collection ⟨1, [], by decide⟩ [] 1 (fun _ => 0) (fun _ => []) =
      .error .valueError ∧
    generate_rr_sets_collection ⟨1, [], by decide⟩ [("p", ⟨"int32_t", []⟩)] 1
      (fun _ => 0) (fun _ => []) = .error .typeError :=
  ⟨(@validation_fails_fast ⟨1, [], by decide⟩ [] 1 (fun _ => 0) (fun _ => [])
      (by decide)).1 rfl,
   (@validation_fails_fast ⟨1, [], by decide⟩ [("p", ⟨"int32_t", []⟩)] 1
      (fun _ => 0) (fun _ => []) (by decide)).2 ⟨"int32_t", []⟩ rfl (by decide)⟩

/-- C8.  For a validated graph, `num_samples <= 0` yields the empty
collection without error, and `num_samples > 0` yields exactly
`num_samples` RR sets in call order — the `i`-th element is the result of
the `i`-th sampler call. -/
theorem generate_rr_sets_collection_spec :
    (∀ (g : Digraph) (props : List (String × EdgeProp)) (ns : ℤ)
      (roots : ℕ → ℕ) (draws : ℕ → List ℚ), ns ≤ 0 →
      generate_rr_sets_collection g props ns roots draws = .ok []) ∧
    (∀ (g : Digraph) (props : List (String × EdgeProp)) (ns : ℤ)
      (roots : ℕ → ℕ) (draws : ℕ → List ℚ) (pm : EdgeProp) (sets : List (Finset ℕ)),
      0 < ns → lookupProp props "p" = some pm → isFloatKind pm.value_type = true →
      generate_rr_sets_collection g props ns roots draws = .ok sets →
      (sets.length : ℤ) = ns ∧
      ∀ i < sets.length,
        sets.getD i ∅ = generate_rr_set g pm.values (roots i) (draws i)) := by
  constructor
  · intro g props ns roots draws hns
    unfold generate_rr_sets_collection
    rw [if_pos hns]
  · intro g props ns roots draws pm sets hns hlk hfk hok
    unfold generate_rr_sets_collection at hok
    rw [if_neg (by omega)] at hok
    simp only [hlk, hfk, if_true] at hok
    injection hok with hok
    constructor
    · rw [← hok, List.length_map, List.length_range]
      exact Int.toNat_of_nonneg (le_of_lt hns)
    · intro i hi
      rw [← hok] at hi ⊢
      rw [List.length_map, List.length_range] at hi
      rw [List.getD_eq_getElem?_getD]
      simp [List.getElem?_map, List.getElem?_range, hi]

/-- Witness for C8: a negative sample count, and two samples on the
one-vertex graph. -/
theorem generate_rr_sets_collection_spec_witness :
    generate_rr_sets_collection ⟨1, [], by decide⟩ [] (-3) (fun _ => 0) (fun _ => []) =
      .ok [] ∧
    ((([{0}, {0}] : List (Finset ℕ)).length : ℤ) = 2 ∧
      ∀ i < ([{0}, {0}] : List (Finset ℕ)).length,
        ([{0}, {0}] : List (Finset ℕ)).getD i ∅ =
          generate_rr_set ⟨1, [], by decide⟩ [] 0 []) :=
  ⟨generate_rr_sets_collection_spec.1 ⟨1, [], by decide⟩ [] (-3) (fun _ => 0)
     (fun _ => []) (by decide),
   generate_rr_sets_collection_spec.2 ⟨1, [], by decide⟩ [("p", ⟨"double", []⟩)] 2
     (fun _ => 0) (fun _ => []) ⟨"double", []⟩ [{0}, {0}] (by decide) rfl (by decide) rfl⟩

/-- C10.  Every element of an RR set is a vertex id below the graph's
vertex count, so every collection the builder returns satisfies the
in-bounds precondition of `find_seed_set` at `num_vertices = g.n`. -/
theorem rr_sets_in_bounds :
    (∀ (g : Digraph) (p : List ℚ) (root : ℕ) (draws : List ℚ), root < g.n →
      ∀ v ∈ generate_rr_set g p root draws, v < g.n) ∧
    (∀ (g : Digraph) (props : List (String × EdgeProp)) (ns : ℤ)
      (roots : ℕ → ℕ) (draws : ℕ → List ℚ) (sets : List (Finset ℕ)),
      (∀ i, roots i < g.n) →
      generate_rr_sets_collection g props ns roots draws = .ok sets →
      InBounds sets g.n) := by
  constructor
  · intro g p root draws hroot
    exact generate_rr_set_lt hroot
  · intro g props ns roots draws sets hroots hok
    unfold generate_rr_sets_collection at hok
    by_cases hns : ns ≤ 0
    · rw [if_pos hns] at hok
      injection hok with hok
      rw [← hok]
      intro S hS
      cases hS
    · rw [if_neg hns] at hok
      cases hlk : lookupProp props "p" with
      | none =>
        rw [hlk] at hok
        cases hok
      | some pm =>
        rw [hlk] at hok
        by_cases hfk : isFloatKind pm.value_type = true
        · simp only [hfk, if_true] at hok
          injection hok with hok
          intro S hS v hv
          rw [← hok] at hS
          obtain ⟨i, _, rfl⟩ := List.mem_map.mp hS
          exact generate_rr_set_lt (hroots i) v hv
        · simp only [if_neg hfk] at hok
          cases hok

/-- Witness for C10, on the §8 scenario graph and a two-sample collection. -/
theorem rr_sets_in_bounds_witness :
    (∀ v ∈ generate_rr_set ⟨4, [(0, 1), (1, 2), (3, 2)], by decide⟩ [1, 1, 1] 2
      [0, 0, 0], v < 4) ∧
    InBounds [{0}, {0}] 1 :=
  ⟨rr_sets_in_bounds.1 ⟨4, [(0, 1), (1, 2), (3, 2)], by decide⟩ [1, 1, 1] 2
     [0, 0, 0] (by decide),
   rr_sets_in_bounds.2 ⟨1, [], by decide⟩ [("p", ⟨"double", []⟩)] 2 (fun _ => 0)
     (fun _ => []) [{0}, {0}] (fun _ => Nat.one_pos) rfl⟩

end ADFCRIS
